import Mathlib

/-!
Verification of the PowerPoint slide-translator core
(`slide_translator/core.py`, `slide_translator/pptx_processor.py`).

Strings are modelled as `List Char`.  Runs carry a text plus the two
tri-state formatting flags (`Option Bool`, `none` being python-pptx's
`None`/inherited-unset).  Every function below is a direct translation of
the corresponding Python function; fuel-based recursion is used where the
Python scans a string by pattern matching (so that the kernel can evaluate
the definitions on concrete inputs).
-/

namespace SlideTranslator

/-- The four marker token literals, as character lists. -/
def bStartTok : List Char := "<BOLD_START>".data

/-- Token literal for the end of a bold span. -/
def bEndTok : List Char := "<BOLD_END>".data

/-- Token literal for the start of an italic span. -/
def iStartTok : List Char := "<ITALIC_START>".data

/-- Token literal for the end of an italic span. -/
def iEndTok : List Char := "<ITALIC_END>".data

/-- Boolean prefix test on character lists (mirrors Python `startswith` /
`str.replace` scanning). -/
def beginsWith : List Char → List Char → Bool
  | [], _ => true
  | _ :: _, [] => false
  | c :: p, d :: s => c == d && beginsWith p s

/-- Whitespace characters as recognised by Python's `str.strip()` (ASCII part). -/
def isSpaceChar (c : Char) : Bool :=
  c == ' ' || c == '\t' || c == '\n' || c == '\r' || c == '\x0b' || c == '\x0c'

/-- Truthiness of Python `s.strip()`: the string has at least one
non-whitespace character. -/
def hasVisible (s : List Char) : Bool :=
  s.any (fun c => !(isSpaceChar c))

/-- A formatting run: text plus tri-state bold/italic flags
(`none` = python-pptx `None`, i.e. inherited / unset). -/
structure Run where
  text : List Char
  bold : Option Bool
  italic : Option Bool
deriving DecidableEq, Repr

/-- Concatenation of the texts of a list of runs (`combined_text` in the
extractor, and the text content of `create_formatted_text_with_markers`). -/
def concatTexts : List Run → List Char
  | [] => []
  | r :: rs => r.text ++ concatTexts rs

/-- Loop body of `create_formatted_text_with_markers`: walks the runs
carrying the `current_bold` / `current_italic` state (initially `None` in
the Python source, hence `Option Bool`), skipping runs with empty text,
emitting a marker whenever the run's effective flag differs from the
current state, and closing any truthy state after the last run. -/
def encodeLoop : List Run → Option Bool → Option Bool → List Char
  | [], cb, ci =>
      (if cb = some true then bEndTok else []) ++
      (if ci = some true then iEndTok else [])
  | r :: rs, cb, ci =>
      if r.text = [] then
        encodeLoop rs cb ci
      else
        (if some (r.bold.getD false) ≠ cb then
          (if r.bold.getD false then bStartTok else bEndTok) else []) ++
        (if some (r.italic.getD false) ≠ ci then
          (if r.italic.getD false then iStartTok else iEndTok) else []) ++
        r.text ++ encodeLoop rs (some (r.bold.getD false)) (some (r.italic.getD false))

/-- Function `create_formatted_text_with_markers` from `slide_translator/core.py`. -/
def createFormattedTextWithMarkers (originalRuns : List Run) : List Char :=
  match originalRuns with
  | [] => []
  | rs => encodeLoop rs none none

/-- Fuel-based scanner for Python `clean_text.replace(marker, "")`:
leftmost, non-overlapping removal of every occurrence of `pat`.
The fuel is always instantiated with the length of the string, which
suffices because every step consumes at least one character. -/
def stripTokAux (pat : List Char) : Nat → List Char → List Char
  | _, [] => []
  | 0, s => s
  | f + 1, c :: rest =>
      if beginsWith pat (c :: rest) then
        stripTokAux pat f (rest.drop (pat.length - 1))
      else
        c :: stripTokAux pat f rest

/-- Removal of every occurrence of `pat` from `s` (Python `s.replace(pat, "")`). -/
def stripTokL (pat s : List Char) : List Char :=
  stripTokAux pat s.length s

/-- The marker-removal step of the single-run branch of
`apply_formatted_text_to_runs`: the four `replace` calls in source order
(BOLD_START, BOLD_END, ITALIC_START, ITALIC_END). -/
def cleanText (s : List Char) : List Char :=
  stripTokL iEndTok (stripTokL iStartTok (stripTokL bEndTok (stripTokL bStartTok s)))

/-- Which marker token (if any) matches at the head of `s`.  The four
literals are tried in the order they appear in the `re.split` alternation;
at most one can match at a given position. -/
def matchTok (s : List Char) : Option (List Char) :=
  if beginsWith bStartTok s then some bStartTok
  else if beginsWith bEndTok s then some bEndTok
  else if beginsWith iStartTok s then some iStartTok
  else if beginsWith iEndTok s then some iEndTok
  else none

/-- Fuel-based model of
`re.split(r'(<BOLD_START>|<BOLD_END>|<ITALIC_START>|<ITALIC_END>)', s)`:
the result alternates literal fragments and matched tokens, beginning and
ending with a (possibly empty) fragment.  `acc` is the current fragment,
reversed. -/
def splitMarksAux : Nat → List Char → List Char → List (List Char)
  | _, acc, [] => [acc.reverse]
  | 0, acc, s => [acc.reverse ++ s]
  | f + 1, acc, c :: rest =>
      match matchTok (c :: rest) with
      | some t => acc.reverse :: t :: splitMarksAux f [] (rest.drop (t.length - 1))
      | none => splitMarksAux f (c :: acc) rest

/-- Tokenization of a marked string (see `splitMarksAux`). -/
def splitMarks (s : List Char) : List (List Char) :=
  splitMarksAux s.length [] s

/-- Effect of assigning one decoded segment to a run
(`run.text = part` plus the two guarded flag assignments: a flag is only
overwritten when it is not `None`). -/
def applySeg (r : Run) (p : List Char) (b i : Bool) : Run :=
  { text := p
  , bold := if r.bold.isSome then some b else r.bold
  , italic := if r.italic.isSome then some i else r.italic }

/-- The `for part in parts` loop of `apply_formatted_text_to_runs`:
markers toggle the state, fragments with visible text are poured into the
run at `idx` (when it exists) and advance `idx`; blank fragments are
skipped. -/
def applyLoop : List (List Char) → List Run → Bool → Bool → Nat → List Run
  | [], runs, _, _, _ => runs
  | p :: ps, runs, b, i, idx =>
      if p == bStartTok then applyLoop ps runs true i idx
      else if p == bEndTok then applyLoop ps runs false i idx
      else if p == iStartTok then applyLoop ps runs b true idx
      else if p == iEndTok then applyLoop ps runs b false idx
      else if hasVisible p then
        if h : idx < runs.length then
          applyLoop ps (runs.set idx (applySeg runs[idx] p b i)) b i (idx + 1)
        else
          applyLoop ps runs b i idx
      else applyLoop ps runs b i idx

/-- Clearing a run's text (`run.text = ""`). -/
def clearText (r : Run) : Run := { r with text := [] }

/-- Function `apply_formatted_text_to_runs` from `slide_translator/core.py`
(runs are modelled immutably: the function returns the updated run list).
Empty run list: nothing to do.  Exactly one run: all markers are removed
and the whole cleaned text is assigned, formatting untouched.  Otherwise:
every run's text is cleared, the marked string is tokenized and the
fragments are redistributed positionally. -/
def applyFormattedTextToRuns (originalRuns : List Run) (t : List Char) : List Run :=
  match originalRuns with
  | [] => []
  | [r] => [{ r with text := cleanText t }]
  | r1 :: r2 :: rs =>
      applyLoop (splitMarks t) ((r1 :: r2 :: rs).map clearText) false false 0

/-- Decoded segments of a token/fragment list: the walk of step 2 of the
decoder, keeping for each visible fragment the (text, bold, italic) triple
current at that point.  This is the redistribution plan that `applyLoop`
pours into the runs. -/
def decodeSegments : List (List Char) → Bool → Bool → List (List Char × Bool × Bool)
  | [], _, _ => []
  | p :: ps, b, i =>
      if p == bStartTok then decodeSegments ps true i
      else if p == bEndTok then decodeSegments ps false i
      else if p == iStartTok then decodeSegments ps b true
      else if p == iEndTok then decodeSegments ps b false
      else if hasVisible p then (p, b, i) :: decodeSegments ps b i
      else decodeSegments ps b i

/-- Positional assignment of decoded segments onto (already cleared) runs:
segment `i` goes to run `i`; surplus runs are left as they are, surplus
segments are dropped. -/
def assignSegs : List Run → List (List Char × Bool × Bool) → List Run
  | rs, [] => rs
  | [], _ => []
  | r :: rs, (p, b, i) :: ss => applySeg r p b i :: assignSegs rs ss

/-- True when some position below the common length of the two lists holds
different characters; at such lists no prefix relation can hold, whatever
follows. -/
def mismatchWithin : List Char → List Char → Bool
  | a :: p, b :: q => (a != b) || mismatchWithin p q
  | _, _ => false

/-- All characters differ from the opening angle bracket. -/
def noLtAll (s : List Char) : Bool := s.all (fun c => !(c == '<'))

/-- Substring occurrence test (used only to state counterexamples). -/
def occursIn (pat : List Char) : List Char → Bool
  | [] => pat == []
  | c :: rest => beginsWith pat (c :: rest) || occursIn pat rest

/-- A string free of all four marker literals. -/
def tokenFreeStr (s : List Char) : Bool :=
  !(occursIn bStartTok s) && !(occursIn bEndTok s) &&
  !(occursIn iStartTok s) && !(occursIn iEndTok s)

/-- Whether a chunk is one of the four token literals (compared exactly as
the decoder loop does). -/
def isTokChunk (c : List Char) : Bool :=
  c == bStartTok || c == bEndTok || c == iStartTok || c == iEndTok

/-- A chunk of an interleaving: either a token literal or a bracket-free
text. -/
def wfChunk (c : List Char) : Bool := isTokChunk c || noLtAll c

/-- All chunks well formed. -/
def wfChunks (cs : List (List Char)) : Bool := cs.all wfChunk

/-- Concatenation of a chunk list. -/
def flattenL : List (List Char) → List Char
  | [] => []
  | c :: cs => c ++ flattenL cs

theorem beginsWith_append_self (p r : List Char) : beginsWith p (p ++ r) = true := by
  induction p with
  | nil => rfl
  | cons c p ih => simp [beginsWith, ih]

theorem beginsWith_cons_head_ne {a c : Char} (p s : List Char) (h : ¬ a = c) :
    beginsWith (a :: p) (c :: s) = false := by
  simp [beginsWith, h]

theorem beginsWith_of_mismatch {p q : List Char} (r : List Char)
    (h : mismatchWithin p q = true) : beginsWith p (q ++ r) = false := by
  induction p generalizing q with
  | nil => cases q <;> simp [mismatchWithin] at h
  | cons a p ih =>
      cases q with
      | nil => simp [mismatchWithin] at h
      | cons b q =>
          simp only [mismatchWithin, Bool.or_eq_true, bne_iff_ne] at h
          rcases h with h | h
          · exact beginsWith_cons_head_ne _ _ h
          · simp [beginsWith, ih h]

theorem beginsWith_lt_head {p s r : List Char} (hs : noLtAll s = true) (hne : s ≠ []) :
    beginsWith ('<' :: p) (s ++ r) = false := by
  cases s with
  | nil => exact absurd rfl hne
  | cons d s =>
      have hd : ¬ ('<' = d) := by
        simp [noLtAll] at hs
        exact fun he => hs.1 he.symm
      exact beginsWith_cons_head_ne _ _ hd

theorem noLtAll_drop {s : List Char} (h : noLtAll s = true) (k : Nat) :
    noLtAll (s.drop k) = true := by
  simp only [noLtAll, List.all_eq_true] at h ⊢
  exact fun c hc => h c (List.mem_of_mem_drop hc)

theorem noLtAll_append {s t : List Char} (hs : noLtAll s = true) (ht : noLtAll t = true) :
    noLtAll (s ++ t) = true := by
  simp only [noLtAll, List.all_append, Bool.and_eq_true]
  exact ⟨hs, ht⟩

/-- Fuel does not matter for `stripTokAux` once it is at least the length
of the string. -/
theorem stripTokAux_congr (pat : List Char) :
    ∀ f g s, s.length ≤ f → s.length ≤ g →
      stripTokAux pat f s = stripTokAux pat g s := by
  intro f
  induction f with
  | zero =>
      intro g s hf _
      have : s = [] := List.eq_nil_of_length_eq_zero (Nat.le_zero.mp hf)
      subst this
      cases g <;> rfl
  | succ f ih =>
      intro g s hf hg
      cases s with
      | nil => cases g <;> rfl
      | cons c rest =>
          cases g with
          | zero => exact absurd hg (by simp)
          | succ g =>
              simp only [stripTokAux]
              have hdrop : (rest.drop (pat.length - 1)).length ≤ rest.length := by
                rw [List.length_drop]
                exact Nat.sub_le _ _
              have hf' : rest.length ≤ f := Nat.le_of_succ_le_succ (by simpa using hf)
              have hg' : rest.length ≤ g := Nat.le_of_succ_le_succ (by simpa using hg)
              by_cases hb : beginsWith pat (c :: rest) = true
              · simp only [hb, if_true]
                exact ih g _ (Nat.le_trans hdrop hf') (Nat.le_trans hdrop hg')
              · simp only [Bool.not_eq_true] at hb
                simp only [hb, Bool.false_eq_true, if_false, List.cons.injEq, true_and]
                exact ih g rest hf' hg'

/-- Recursion equation for `stripTokL` on a nonempty string. -/
theorem stripTokL_cons (pat : List Char) (c : Char) (rest : List Char) :
    stripTokL pat (c :: rest) =
      if beginsWith pat (c :: rest) then stripTokL pat (rest.drop (pat.length - 1))
      else c :: stripTokL pat rest := by
  show stripTokAux pat (rest.length + 1) (c :: rest) = _
  simp only [stripTokAux]
  by_cases hb : beginsWith pat (c :: rest) = true
  · simp only [hb, if_true]
    apply stripTokAux_congr
    · rw [List.length_drop]
      exact Nat.sub_le _ _
    · exact Nat.le_refl _
  · simp only [Bool.not_eq_true] at hb
    simp only [hb, Bool.false_eq_true, if_false]
    rfl

/-- Fuel does not matter for `splitMarksAux` once it is at least the length
of the string. -/
theorem splitMarksAux_congr :
    ∀ f g acc s, s.length ≤ f → s.length ≤ g →
      splitMarksAux f acc s = splitMarksAux g acc s := by
  intro f
  induction f with
  | zero =>
      intro g acc s hf _
      have : s = [] := List.eq_nil_of_length_eq_zero (Nat.le_zero.mp hf)
      subst this
      cases g <;> rfl
  | succ f ih =>
      intro g acc s hf hg
      cases s with
      | nil => cases g <;> rfl
      | cons c rest =>
          cases g with
          | zero => exact absurd hg (by simp)
          | succ g =>
              simp only [splitMarksAux]
              have hf' : rest.length ≤ f := Nat.le_of_succ_le_succ (by simpa using hf)
              have hg' : rest.length ≤ g := Nat.le_of_succ_le_succ (by simpa using hg)
              cases hm : matchTok (c :: rest) with
              | none => exact ih g (c :: acc) rest hf' hg'
              | some t =>
                  simp only [List.cons.injEq, true_and]
                  have hdrop : (rest.drop (t.length - 1)).length ≤ rest.length := by
                    rw [List.length_drop]
                    exact Nat.sub_le _ _
                  exact ih g [] _ (Nat.le_trans hdrop hf') (Nat.le_trans hdrop hg')

theorem stripTokL_self_append (pat rest : List Char) (h : pat ≠ []) :
    stripTokL pat (pat ++ rest) = stripTokL pat rest := by
  cases pat with
  | nil => exact absurd rfl h
  | cons c p =>
      rw [List.cons_append, stripTokL_cons]
      rw [show beginsWith (c :: p) (c :: (p ++ rest)) = true from beginsWith_append_self _ _]
      simp only [if_true, List.length_cons, Nat.add_sub_cancel]
      rw [List.drop_left]

theorem stripTokL_append_no_match (pat t rest : List Char)
    (h : ∀ i, i < t.length → beginsWith pat (t.drop i ++ rest) = false) :
    stripTokL pat (t ++ rest) = t ++ stripTokL pat rest := by
  induction t with
  | nil => simp
  | cons c t ih =>
      rw [List.cons_append, stripTokL_cons]
      have h0 : beginsWith pat (c :: (t ++ rest)) = false := by
        simpa using h 0 (by simp)
      rw [h0]
      simp only [Bool.false_eq_true, if_false, List.cons_append, List.cons.injEq, true_and]
      exact ih (fun i hi => by simpa using h (i + 1) (by simpa using Nat.succ_lt_succ hi))

theorem isTokChunk_cases {c : List Char} (h : isTokChunk c = true) :
    c = bStartTok ∨ c = bEndTok ∨ c = iStartTok ∨ c = iEndTok := by
  simp only [isTokChunk, Bool.or_eq_true, beq_iff_eq] at h
  tauto

theorem tok_head {tok : List Char} (h : isTokChunk tok = true) :
    ∃ p, tok = '<' :: p := by
  rcases isTokChunk_cases h with rfl | rfl | rfl | rfl
  · exact ⟨"BOLD_START>".data, by decide⟩
  · exact ⟨"BOLD_END>".data, by decide⟩
  · exact ⟨"ITALIC_START>".data, by decide⟩
  · exact ⟨"ITALIC_END>".data, by decide⟩

theorem tok_ne_nil {tok : List Char} (h : isTokChunk tok = true) : tok ≠ [] := by
  rcases isTokChunk_cases h with rfl | rfl | rfl | rfl <;> decide

theorem noLt_tok_false {c : List Char} (h : noLtAll c = true) : isTokChunk c = false := by
  cases hic : isTokChunk c with
  | false => rfl
  | true =>
      rcases isTokChunk_cases hic with rfl | rfl | rfl | rfl <;>
        exact absurd h (by decide)

theorem tok_tail_noLt {t : List Char} (ht : isTokChunk t = true) (k : Nat) :
    noLtAll (t.drop (k + 1)) = true := by
  have key : ∀ q : List Char, noLtAll q = true → noLtAll (('<' :: q).drop (k + 1)) = true := by
    intro q hq
    rw [List.drop_succ_cons]
    exact noLtAll_drop hq k
  rcases isTokChunk_cases ht with rfl | rfl | rfl | rfl
  · rw [(by decide : bStartTok = '<' :: "BOLD_START>".data)]
    exact key _ (by decide)
  · rw [(by decide : bEndTok = '<' :: "BOLD_END>".data)]
    exact key _ (by decide)
  · rw [(by decide : iStartTok = '<' :: "ITALIC_START>".data)]
    exact key _ (by decide)
  · rw [(by decide : iEndTok = '<' :: "ITALIC_END>".data)]
    exact key _ (by decide)

theorem scan_premise_tok {tok t : List Char} (htok : isTokChunk tok = true)
    (ht : isTokChunk t = true) (hne : t ≠ tok) (rest : List Char) :
    ∀ i, i < t.length → beginsWith tok (t.drop i ++ rest) = false := by
  intro i hi
  cases i with
  | zero =>
      have hmm : mismatchWithin tok t = true := by
        rcases isTokChunk_cases htok with rfl | rfl | rfl | rfl <;>
          rcases isTokChunk_cases ht with rfl | rfl | rfl | rfl <;>
            first
              | exact absurd rfl hne
              | decide
      simpa using beginsWith_of_mismatch rest hmm
  | succ i =>
      obtain ⟨p, rfl⟩ := tok_head htok
      apply beginsWith_lt_head (tok_tail_noLt ht i)
      apply List.length_pos.mp
      rw [List.length_drop]
      omega

theorem scan_premise_text {tok t : List Char} (htok : isTokChunk tok = true)
    (hnt : noLtAll t = true) (rest : List Char) :
    ∀ i, i < t.length → beginsWith tok (t.drop i ++ rest) = false := by
  intro i hi
  obtain ⟨p, rfl⟩ := tok_head htok
  apply beginsWith_lt_head (noLtAll_drop hnt i)
  apply List.length_pos.mp
  rw [List.length_drop]
  omega

/-- Removing one token literal from a well-formed interleaving removes
exactly the chunks equal to that token: no text characters are touched and
no occurrence is missed, because a token occurrence can only start at a
token chunk boundary. -/
theorem stripTokL_flatten {tok : List Char} (htok : isTokChunk tok = true) :
    ∀ cs, wfChunks cs = true →
      stripTokL tok (flattenL cs) = flattenL (cs.filter (fun c => !(c == tok))) := by
  intro cs
  induction cs with
  | nil => intro _; rfl
  | cons c cs ih =>
      intro h
      simp only [wfChunks, List.all_cons, Bool.and_eq_true] at h
      obtain ⟨hc, hcs⟩ := h
      by_cases heq : c = tok
      · subst heq
        rw [show flattenL (c :: cs) = c ++ flattenL cs from rfl]
        rw [stripTokL_self_append _ _ (tok_ne_nil htok)]
        rw [ih hcs]
        simp [List.filter_cons]
      · have hprem : ∀ i, i < c.length → beginsWith tok (c.drop i ++ flattenL cs) = false := by
          have hor : isTokChunk c = true ∨ noLtAll c = true := by
            simpa [wfChunk, Bool.or_eq_true] using hc
          rcases hor with hic | hlt
          · exact scan_premise_tok htok hic heq _
          · exact scan_premise_text htok hlt _
        rw [show flattenL (c :: cs) = c ++ flattenL cs from rfl]
        rw [stripTokL_append_no_match _ _ _ hprem, ih hcs]
        simp [List.filter_cons, heq, flattenL]

theorem wfChunks_filter {cs : List (List Char)} (f : List Char → Bool)
    (h : wfChunks cs = true) : wfChunks (cs.filter f) = true := by
  simp only [wfChunks, List.all_eq_true] at h ⊢
  exact fun c hc => h c (List.mem_of_mem_filter hc)

/-- The single-run cleanup (`cleanText`) on a well-formed interleaving
removes exactly the token chunks, leaving the concatenated text chunks. -/
theorem cleanText_flatten {cs : List (List Char)} (h : wfChunks cs = true) :
    cleanText (flattenL cs) = flattenL (cs.filter (fun c => !(isTokChunk c))) := by
  unfold cleanText
  rw [stripTokL_flatten (by decide : isTokChunk bStartTok = true) cs h]
  rw [stripTokL_flatten (by decide : isTokChunk bEndTok = true) _ (wfChunks_filter _ h)]
  rw [stripTokL_flatten (by decide : isTokChunk iStartTok = true) _
    (wfChunks_filter _ (wfChunks_filter _ h))]
  rw [stripTokL_flatten (by decide : isTokChunk iEndTok = true) _
    (wfChunks_filter _ (wfChunks_filter _ (wfChunks_filter _ h)))]
  congr 1
  rw [List.filter_filter, List.filter_filter, List.filter_filter]
  apply List.filter_congr
  intro c _
  simp only [isTokChunk]
  cases c == bStartTok <;> cases c == bEndTok <;>
    cases c == iStartTok <;> cases c == iEndTok <;> rfl

theorem matchTok_none_of_head_ne {c : Char} (rest : List Char) (h : ¬ c = '<') :
    matchTok (c :: rest) = none := by
  have key : ∀ tok : List Char, isTokChunk tok = true →
      beginsWith tok (c :: rest) = false := by
    intro tok htok
    obtain ⟨p, rfl⟩ := tok_head htok
    exact beginsWith_cons_head_ne _ _ (fun he => h he.symm)
  unfold matchTok
  rw [key bStartTok (by decide), key bEndTok (by decide),
    key iStartTok (by decide), key iEndTok (by decide)]
  rfl

theorem matchTok_tok_append {tok : List Char} (htok : isTokChunk tok = true)
    (rest : List Char) : matchTok (tok ++ rest) = some tok := by
  have hself : beginsWith tok (tok ++ rest) = true := beginsWith_append_self _ _
  have hother : ∀ t : List Char, isTokChunk t = true → t ≠ tok →
      beginsWith t (tok ++ rest) = false := by
    intro t ht hne
    have hmm : mismatchWithin t tok = true := by
      rcases isTokChunk_cases ht with rfl | rfl | rfl | rfl <;>
        rcases isTokChunk_cases htok with rfl | rfl | rfl | rfl <;>
          first
            | exact absurd rfl hne
            | decide
    exact beginsWith_of_mismatch rest hmm
  unfold matchTok
  rcases isTokChunk_cases htok with rfl | rfl | rfl | rfl
  · rw [hself]
    simp
  · rw [hother bStartTok (by decide) (by decide), hself]
    simp
  · rw [hother bStartTok (by decide) (by decide),
      hother bEndTok (by decide) (by decide), hself]
    simp
  · rw [hother bStartTok (by decide) (by decide),
      hother bEndTok (by decide) (by decide),
      hother iStartTok (by decide) (by decide), hself]
    simp

/-- Tokenization pulls off a leading token literal whole. -/
theorem splitMarks_tok_append {tok : List Char} (htok : isTokChunk tok = true)
    (rest : List Char) :
    splitMarks (tok ++ rest) = [] :: tok :: splitMarks rest := by
  obtain ⟨p, hp⟩ := tok_head htok
  have hm : matchTok (tok ++ rest) = some tok := matchTok_tok_append htok rest
  rw [hp] at hm ⊢
  rw [List.cons_append]
  show splitMarksAux (('<' :: (p ++ rest)).length) [] ('<' :: (p ++ rest)) = _
  simp only [List.length_cons, splitMarksAux]
  rw [show ('<' :: (p ++ rest)) = ('<' :: p) ++ rest from rfl, hm]
  simp only [List.reverse_nil, List.cons.injEq, true_and, List.length_cons,
    Nat.add_sub_cancel]
  rw [List.drop_left]
  apply splitMarksAux_congr
  · simp [List.length_append]
  · exact Nat.le_refl _

/-- Tokenization leaves a bracket-free string whole: one single fragment. -/
theorem splitMarksAux_noLt (s : List Char) (hs : noLtAll s = true) :
    ∀ f acc, s.length ≤ f → splitMarksAux f acc s = [acc.reverse ++ s] := by
  induction s with
  | nil =>
      intro f acc _
      cases f <;> simp [splitMarksAux]
  | cons c rest ih =>
      intro f acc hf
      simp only [noLtAll, List.all_cons, Bool.and_eq_true, Bool.not_eq_true',
        beq_eq_false_iff_ne] at hs
      obtain ⟨hc, hrest⟩ := hs
      cases f with
      | zero => exact absurd hf (by simp)
      | succ f =>
          simp only [splitMarksAux]
          rw [matchTok_none_of_head_ne rest hc]
          rw [ih (by simpa [noLtAll] using hrest) f (c :: acc)
            (Nat.le_of_succ_le_succ (by simpa using hf))]
          simp

theorem splitMarks_noLt (s : List Char) (hs : noLtAll s = true) :
    splitMarks s = [s] := by
  simpa using splitMarksAux_noLt s hs s.length [] (Nat.le_refl _)

/-- Chunk decomposition of the encoder loop: the same walk, but keeping
the emitted tokens and the copied run texts as separate chunks. -/
def encodeChunksLoop : List Run → Option Bool → Option Bool → List (List Char)
  | [], cb, ci =>
      (if cb = some true then [bEndTok] else []) ++
      (if ci = some true then [iEndTok] else [])
  | r :: rs, cb, ci =>
      if r.text = [] then
        encodeChunksLoop rs cb ci
      else
        (if some (r.bold.getD false) ≠ cb then
          [if r.bold.getD false then bStartTok else bEndTok] else []) ++
        (if some (r.italic.getD false) ≠ ci then
          [if r.italic.getD false then iStartTok else iEndTok] else []) ++
        [r.text] ++ encodeChunksLoop rs (some (r.bold.getD false)) (some (r.italic.getD false))

theorem flattenL_append (a b : List (List Char)) :
    flattenL (a ++ b) = flattenL a ++ flattenL b := by
  induction a with
  | nil => rfl
  | cons c a ih => simp [flattenL, ih]

theorem encodeLoop_eq_flatten (rs : List Run) :
    ∀ cb ci, encodeLoop rs cb ci = flattenL (encodeChunksLoop rs cb ci) := by
  induction rs with
  | nil =>
      intro cb ci
      simp only [encodeLoop, encodeChunksLoop, flattenL_append]
      split_ifs <;> simp [flattenL]
  | cons r rs ih =>
      intro cb ci
      simp only [encodeLoop, encodeChunksLoop]
      by_cases ht : r.text = []
      · simp [ht, ih]
      · simp only [ht, if_false, flattenL_append]
        split_ifs <;> simp [flattenL, ih]

theorem encodeChunks_wf (rs : List Run) (h : ∀ r ∈ rs, noLtAll r.text = true) :
    ∀ cb ci, wfChunks (encodeChunksLoop rs cb ci) = true := by
  induction rs with
  | nil =>
      intro cb ci
      simp only [encodeChunksLoop, wfChunks, List.all_append]
      split_ifs <;> simp <;> decide
  | cons r rs ih =>
      intro cb ci
      have hr : noLtAll r.text = true := h r (List.mem_cons_self _ _)
      have hrs : ∀ x ∈ rs, noLtAll x.text = true :=
        fun x hx => h x (List.mem_cons_of_mem _ hx)
      simp only [encodeChunksLoop]
      by_cases ht : r.text = []
      · simp only [ht, if_true]
        exact ih hrs cb ci
      · simp only [ht, if_false, wfChunks, List.all_append, Bool.and_eq_true]
        refine ⟨⟨⟨?_, ?_⟩, ?_⟩, ?_⟩
        · split_ifs <;> simp <;> decide
        · split_ifs <;> simp <;> decide
        · simp [wfChunk, hr]
        · exact ih hrs _ _

theorem encodeChunks_filter (rs : List Run) (h : ∀ r ∈ rs, noLtAll r.text = true) :
    ∀ cb ci,
      flattenL ((encodeChunksLoop rs cb ci).filter (fun c => !(isTokChunk c)))
        = concatTexts rs := by
  induction rs with
  | nil =>
      intro cb ci
      simp only [encodeChunksLoop, List.filter_append, flattenL_append, concatTexts]
      split_ifs <;> simp [flattenL]
  | cons r rs ih =>
      intro cb ci
      have hr : noLtAll r.text = true := h r (List.mem_cons_self _ _)
      have hrs : ∀ x ∈ rs, noLtAll x.text = true :=
        fun x hx => h x (List.mem_cons_of_mem _ hx)
      simp only [encodeChunksLoop, concatTexts]
      by_cases ht : r.text = []
      · simp only [ht, if_true]
        rw [ih hrs cb ci]
        rfl
      · simp only [ht, if_false, List.filter_append, flattenL_append]
        have htext : (!(isTokChunk r.text)) = true := by
          rw [noLt_tok_false hr]
          rfl
        rw [ih hrs]
        have hb : flattenL (List.filter (fun c => !(isTokChunk c))
            (if some (r.bold.getD false) ≠ cb then
              [if r.bold.getD false then bStartTok else bEndTok] else [])) = [] := by
          split_ifs <;> simp [flattenL]
        have hi : flattenL (List.filter (fun c => !(isTokChunk c))
            (if some (r.italic.getD false) ≠ ci then
              [if r.italic.getD false then iStartTok else iEndTok] else [])) = [] := by
          split_ifs <;> simp [flattenL]
        rw [hb, hi]
        simp [List.filter_cons, htext, flattenL]

/-- Function `create_formatted_text_with_markers` equals the loop (the empty-list early
return coincides with the loop's value on the empty list). -/
theorem createFormatted_eq (rs : List Run) :
    createFormattedTextWithMarkers rs = encodeLoop rs none none := by
  cases rs with
  | nil => simp [createFormattedTextWithMarkers, encodeLoop]
  | cons r rs => rfl

theorem assignSegs_nil_left (ss : List (List Char × Bool × Bool)) :
    assignSegs [] ss = [] := by
  cases ss <;> rfl

theorem assignSegs_nil_right (rs : List Run) : assignSegs rs [] = rs := by
  cases rs <;> rfl

theorem assignSegs_length (rs : List Run) :
    ∀ ss, (assignSegs rs ss).length = rs.length := by
  induction rs with
  | nil =>
      intro ss
      rw [assignSegs_nil_left]
  | cons r rs ih =>
      intro ss
      cases ss with
      | nil => rfl
      | cons s ss =>
          obtain ⟨p, b, i⟩ := s
          simp [assignSegs, ih ss]

theorem assignSegs_getElem (rs : List Run) :
    ∀ (ss : List (List Char × Bool × Bool)) (k : Nat),
      (assignSegs rs ss)[k]? =
        match ss[k]? with
        | some s => (rs[k]?).map (fun r => applySeg r s.1 s.2.1 s.2.2)
        | none => rs[k]? := by
  induction rs with
  | nil =>
      intro ss k
      rw [assignSegs_nil_left]
      cases hss : ss[k]? <;> simp
  | cons r rs ih =>
      intro ss k
      cases ss with
      | nil => simp [assignSegs_nil_right]
      | cons s ss =>
          obtain ⟨p, b, i⟩ := s
          cases k with
          | zero => simp [assignSegs]
          | succ k => simpa [assignSegs] using ih ss k

theorem set_take_succ (l : List Run) :
    ∀ (i : Nat) (a : Run), i < l.length → (l.set i a).take (i + 1) = l.take i ++ [a] := by
  induction l with
  | nil => intro i a h; simp at h
  | cons x l ih =>
      intro i a h
      cases i with
      | zero => simp
      | succ i =>
          simp only [List.set_cons_succ, List.take_succ_cons, List.cons_append,
            List.cons.injEq, true_and]
          exact ih i a (by simpa using h)

theorem set_drop_succ (l : List Run) :
    ∀ (i : Nat) (a : Run), (l.set i a).drop (i + 1) = l.drop (i + 1) := by
  induction l with
  | nil => intro i a; simp
  | cons x l ih =>
      intro i a
      cases i with
      | zero => simp
      | succ i =>
          simp only [List.set_cons_succ, List.drop_succ_cons]
          exact ih i a

theorem drop_cons_self (l : List Run) :
    ∀ i : Nat, (h : i < l.length) → l.drop i = l[i] :: l.drop (i + 1) := by
  induction l with
  | nil => intro i h; simp at h
  | cons x l ih =>
      intro i h
      cases i with
      | zero => simp
      | succ i =>
          simp only [List.drop_succ_cons, List.getElem_cons_succ]
          exact ih i (by simpa using h)

/-- The decoder loop is the positional pouring of the decoded segments:
`applyLoop` starting at run index `idx` leaves the first `idx` runs alone
and assigns the segments of the remaining parts one run at a time. -/
theorem applyLoop_eq (parts : List (List Char)) :
    ∀ (runs : List Run) (b i : Bool) (idx : Nat),
      applyLoop parts runs b i idx =
        runs.take idx ++ assignSegs (runs.drop idx) (decodeSegments parts b i) := by
  induction parts with
  | nil =>
      intro runs b i idx
      simp only [applyLoop, decodeSegments]
      rw [assignSegs_nil_right]
      exact (List.take_append_drop idx runs).symm
  | cons p ps ih =>
      intro runs b i idx
      simp only [applyLoop, decodeSegments]
      by_cases h1 : (p == bStartTok) = true
      · simp only [h1, if_true]
        exact ih runs true i idx
      · simp only [h1, Bool.false_eq_true, if_false]
        by_cases h2 : (p == bEndTok) = true
        · simp only [h2, if_true]
          exact ih runs false i idx
        · simp only [h2, Bool.false_eq_true, if_false]
          by_cases h3 : (p == iStartTok) = true
          · simp only [h3, if_true]
            exact ih runs b true idx
          · simp only [h3, Bool.false_eq_true, if_false]
            by_cases h4 : (p == iEndTok) = true
            · simp only [h4, if_true]
              exact ih runs b false idx
            · simp only [h4, Bool.false_eq_true, if_false]
              by_cases h5 : hasVisible p = true
              · simp only [h5, if_true]
                by_cases h6 : idx < runs.length
                · simp only [h6, dif_pos]
                  rw [ih]
                  rw [set_take_succ runs idx _ h6, set_drop_succ runs idx _,
                    drop_cons_self runs idx h6]
                  simp [assignSegs, List.append_assoc]
                · simp only [h6, dif_neg, not_false_iff]
                  rw [ih]
                  have hdrop : runs.drop idx = [] :=
                    List.drop_eq_nil_of_le (Nat.le_of_not_lt h6)
                  rw [hdrop, assignSegs_nil_left, assignSegs_nil_left]
              · simp only [h5, Bool.false_eq_true, if_false]
                exact ih runs b i idx

/-- The decoded segment texts are exactly the tokenizer fragments that are
not token literals and contain a visible character, in order. -/
theorem decodeSegments_texts (parts : List (List Char)) :
    ∀ b i, (decodeSegments parts b i).map (fun s => s.1) =
      parts.filter (fun p => !(isTokChunk p) && hasVisible p) := by
  induction parts with
  | nil => intro b i; rfl
  | cons p ps ih =>
      intro b i
      simp only [decodeSegments, List.filter_cons]
      by_cases h1 : (p == bStartTok) = true
      · have hc : (!(isTokChunk p) && hasVisible p) = false := by
          simp [isTokChunk, h1]
        simp [h1, hc, ih]
      · simp only [h1, Bool.false_eq_true, if_false]
        by_cases h2 : (p == bEndTok) = true
        · have hc : (!(isTokChunk p) && hasVisible p) = false := by
            simp [isTokChunk, h2]
          simp [h2, hc, ih]
        · simp only [h2, Bool.false_eq_true, if_false]
          by_cases h3 : (p == iStartTok) = true
          · have hc : (!(isTokChunk p) && hasVisible p) = false := by
              simp [isTokChunk, h3]
            simp [h3, hc, ih]
          · simp only [h3, Bool.false_eq_true, if_false]
            by_cases h4 : (p == iEndTok) = true
            · have hc : (!(isTokChunk p) && hasVisible p) = false := by
                simp [isTokChunk, h4]
              simp [h4, hc, ih]
            · simp only [h4, Bool.false_eq_true, if_false]
              have hit : isTokChunk p = false := by
                simp [isTokChunk, h1, h2, h3, h4]
              by_cases h5 : hasVisible p = true
              · simp [h5, hit, ih]
              · have h5f : hasVisible p = false := by
                  simpa using h5
                simp [h5f, hit, ih]

/-- A shape of the document tree: either a group of shapes (recursed into
by `_iter_shapes` and never itself text-bearing) or a plain shape carrying
an optional text frame (a list of paragraphs, each a list of runs) and an
optional table (rows of cells of paragraphs). -/
inductive PShape where
  | group (shapes : List PShape)
  | plain (textFrame : Option (List (List Run)))
      (table : Option (List (List (List (List Run)))))

/-- Function `_iter_shapes` from `slide_translator/pptx_processor.py`: depth-first
flattening of group shapes, yielding non-group shapes in order. -/
def flattenShapes : List PShape → List PShape
  | [] => []
  | PShape.group ss :: rest => flattenShapes ss ++ flattenShapes rest
  | PShape.plain tf tb :: rest => PShape.plain tf tb :: flattenShapes rest

/-- A slide: its shape list and the optional speaker-notes text frame. -/
structure PSlide where
  shapes : List PShape
  notes : Option (List (List Run))

/-- A presentation: its slides. -/
structure Pres where
  slides : List PSlide

/-- One text frame's paragraphs, enumerated from `k`, keeping an entry
`(id, combined_text, runs)` for each paragraph whose combined run text has
a visible character (the `if combined_text.strip()` test). -/
def paraEntries (mkId : Nat → String) : Nat → List (List Run) →
    List (String × List Char × List Run)
  | _, [] => []
  | k, p :: ps =>
      if hasVisible (concatTexts p) then
        (mkId k, concatTexts p, p) :: paraEntries mkId (k + 1) ps
      else
        paraEntries mkId (k + 1) ps

/-- Table cells of one row, enumerated. -/
def tableCellEntries (si shi ri : Nat) : Nat → List (List (List Run)) →
    List (String × List Char × List Run)
  | _, [] => []
  | ci, cell :: rest =>
      paraEntries (fun k => "s" ++ toString si ++ "_sh" ++ toString shi ++
        "_t_r" ++ toString ri ++ "_c" ++ toString ci ++ "_p" ++ toString k) 0 cell ++
      tableCellEntries si shi ri (ci + 1) rest

/-- Table rows, enumerated. -/
def tableRowEntries (si shi : Nat) : Nat → List (List (List (List Run))) →
    List (String × List Char × List Run)
  | _, [] => []
  | ri, row :: rest =>
      tableCellEntries si shi ri 0 row ++ tableRowEntries si shi (ri + 1) rest

/-- Entries contributed by one (already flattened) shape: the text-frame
paragraphs, then the table paragraphs.  A group shape contributes nothing
here because `_iter_shapes` never yields groups. -/
def shapeEntries (si shi : Nat) : PShape → List (String × List Char × List Run)
  | PShape.group _ => []
  | PShape.plain tf tb =>
      (match tf with
       | some paras => paraEntries (fun k => "s" ++ toString si ++ "_sh" ++
           toString shi ++ "_p" ++ toString k) 0 paras
       | none => []) ++
      (match tb with
       | some rows => tableRowEntries si shi 0 rows
       | none => [])

/-- Entries of a list of shapes, enumerated by shape index. -/
def shapesEntries (si : Nat) : Nat → List PShape → List (String × List Char × List Run)
  | _, [] => []
  | shi, s :: rest => shapeEntries si shi s ++ shapesEntries si (shi + 1) rest

/-- Entries of one slide: shapes (flattened through groups first, exactly
as `enumerate(_iter_shapes(slide.shapes))` does), then the notes frame. -/
def slideEntries (si : Nat) (sl : PSlide) : List (String × List Char × List Run) :=
  shapesEntries si 0 (flattenShapes sl.shapes) ++
  (match sl.notes with
   | some paras => paraEntries
       (fun k => "s" ++ toString si ++ "_notes_p" ++ toString k) 0 paras
   | none => [])

/-- Entries of a slide list, enumerated by slide index. -/
def slidesEntries : Nat → List PSlide → List (String × List Char × List Run)
  | _, [] => []
  | si, sl :: rest => slideEntries si sl ++ slidesEntries (si + 1) rest

/-- Function `extract_paragraphs_with_run_mapping` from
`slide_translator/pptx_processor.py`: the pair of insertion-ordered maps
`{paragraph_id: combined_text}` and `{paragraph_id: runs}` (modelled as
association lists in insertion order). -/
def extractParagraphsWithRunMapping (prs : Pres) :
    List (String × List Char) × List (String × List Run) :=
  ((slidesEntries 0 prs.slides).map (fun e => (e.1, e.2.1)),
   (slidesEntries 0 prs.slides).map (fun e => (e.1, e.2.2)))

/-- Specification-side enumeration: the same walk but keeping an entry for
EVERY paragraph, with no visibility filter. -/
def allParaEntries (mkId : Nat → String) : Nat → List (List Run) →
    List (String × List Char × List Run)
  | _, [] => []
  | k, p :: ps => (mkId k, concatTexts p, p) :: allParaEntries mkId (k + 1) ps

/-- Specification-side: all table cells of a row. -/
def allTableCellEntries (si shi ri : Nat) : Nat → List (List (List Run)) →
    List (String × List Char × List Run)
  | _, [] => []
  | ci, cell :: rest =>
      allParaEntries (fun k => "s" ++ toString si ++ "_sh" ++ toString shi ++
        "_t_r" ++ toString ri ++ "_c" ++ toString ci ++ "_p" ++ toString k) 0 cell ++
      allTableCellEntries si shi ri (ci + 1) rest

/-- Specification-side: all table rows. -/
def allTableRowEntries (si shi : Nat) : Nat → List (List (List (List Run))) →
    List (String × List Char × List Run)
  | _, [] => []
  | ri, row :: rest =>
      allTableCellEntries si shi ri 0 row ++ allTableRowEntries si shi (ri + 1) rest

/-- Specification-side: all paragraphs of one shape. -/
def allShapeEntries (si shi : Nat) : PShape → List (String × List Char × List Run)
  | PShape.group _ => []
  | PShape.plain tf tb =>
      (match tf with
       | some paras => allParaEntries (fun k => "s" ++ toString si ++ "_sh" ++
           toString shi ++ "_p" ++ toString k) 0 paras
       | none => []) ++
      (match tb with
       | some rows => allTableRowEntries si shi 0 rows
       | none => [])

/-- Specification-side: all paragraphs of a shape list. -/
def allShapesEntries (si : Nat) : Nat → List PShape → List (String × List Char × List Run)
  | _, [] => []
  | shi, s :: rest => allShapeEntries si shi s ++ allShapesEntries si (shi + 1) rest

/-- Specification-side: all paragraphs of one slide. -/
def allSlideEntries (si : Nat) (sl : PSlide) : List (String × List Char × List Run) :=
  allShapesEntries si 0 (flattenShapes sl.shapes) ++
  (match sl.notes with
   | some paras => allParaEntries
       (fun k => "s" ++ toString si ++ "_notes_p" ++ toString k) 0 paras
   | none => [])

/-- Specification-side: all paragraphs of a slide list. -/
def allSlidesEntries : Nat → List PSlide → List (String × List Char × List Run)
  | _, [] => []
  | si, sl :: rest => allSlideEntries si sl ++ allSlidesEntries (si + 1) rest

/-- Degrouping a presentation: every slide's shape list replaced by its
flattening. -/
def degroup (prs : Pres) : Pres :=
  ⟨prs.slides.map (fun sl => ⟨flattenShapes sl.shapes, sl.notes⟩)⟩

def isGroup : PShape → Bool
  | PShape.group _ => true
  | PShape.plain _ _ => false

theorem flattenShapes_noGroup :
    ∀ (l : List PShape) s, s ∈ flattenShapes l → isGroup s = false := by
  intro l
  induction l using flattenShapes.induct with
  | case1 =>
      intro s hs
      simp [flattenShapes] at hs
  | case2 ss rest ih1 ih2 =>
      intro s hs
      rw [flattenShapes] at hs
      rcases List.mem_append.mp hs with h | h
      · exact ih1 s h
      · exact ih2 s h
  | case3 tf tb rest ih =>
      intro s hs
      rw [flattenShapes] at hs
      rcases List.mem_cons.mp hs with rfl | h
      · rfl
      · exact ih s h

theorem flattenShapes_of_noGroup :
    ∀ l : List PShape, (∀ s ∈ l, isGroup s = false) → flattenShapes l = l := by
  intro l
  induction l with
  | nil => intro _; rw [flattenShapes]
  | cons s rest ih =>
      intro h
      cases s with
      | group ss =>
          exact absurd (h _ (List.mem_cons_self _ _)) (by simp [isGroup])
      | plain tf tb =>
          rw [flattenShapes]
          rw [ih (fun x hx => h x (List.mem_cons_of_mem _ hx))]

theorem flattenShapes_idem (l : List PShape) :
    flattenShapes (flattenShapes l) = flattenShapes l :=
  flattenShapes_of_noGroup _ (flattenShapes_noGroup l)

theorem paraEntries_eq_filter (mkId : Nat → String) :
    ∀ (k : Nat) (ps : List (List Run)),
      paraEntries mkId k ps =
        (allParaEntries mkId k ps).filter (fun e => hasVisible e.2.1) := by
  intro k ps
  induction ps generalizing k with
  | nil => rfl
  | cons p ps ih =>
      simp only [paraEntries, allParaEntries, List.filter_cons]
      by_cases h : hasVisible (concatTexts p) = true
      · simp [h, ih]
      · have hf : hasVisible (concatTexts p) = false := by simpa using h
        simp [hf, ih]

theorem tableCellEntries_eq_filter (si shi ri : Nat) :
    ∀ (ci : Nat) (cells : List (List (List Run))),
      tableCellEntries si shi ri ci cells =
        (allTableCellEntries si shi ri ci cells).filter (fun e => hasVisible e.2.1) := by
  intro ci cells
  induction cells generalizing ci with
  | nil => rfl
  | cons cell rest ih =>
      simp only [tableCellEntries, allTableCellEntries, List.filter_append]
      rw [paraEntries_eq_filter, ih]

theorem tableRowEntries_eq_filter (si shi : Nat) :
    ∀ (ri : Nat) (rows : List (List (List (List Run)))),
      tableRowEntries si shi ri rows =
        (allTableRowEntries si shi ri rows).filter (fun e => hasVisible e.2.1) := by
  intro ri rows
  induction rows generalizing ri with
  | nil => rfl
  | cons row rest ih =>
      simp only [tableRowEntries, allTableRowEntries, List.filter_append]
      rw [tableCellEntries_eq_filter, ih]

theorem shapeEntries_eq_filter (si shi : Nat) (s : PShape) :
    shapeEntries si shi s =
      (allShapeEntries si shi s).filter (fun e => hasVisible e.2.1) := by
  cases s with
  | group ss => rfl
  | plain tf tb =>
      simp only [shapeEntries, allShapeEntries, List.filter_append]
      congr 1
      · cases tf with
        | none => rfl
        | some paras => exact paraEntries_eq_filter _ 0 paras
      · cases tb with
        | none => rfl
        | some rows => exact tableRowEntries_eq_filter si shi 0 rows

theorem shapesEntries_eq_filter (si : Nat) :
    ∀ (shi : Nat) (l : List PShape),
      shapesEntries si shi l =
        (allShapesEntries si shi l).filter (fun e => hasVisible e.2.1) := by
  intro shi l
  induction l generalizing shi with
  | nil => rfl
  | cons s rest ih =>
      simp only [shapesEntries, allShapesEntries, List.filter_append]
      rw [shapeEntries_eq_filter, ih]

theorem slideEntries_eq_filter (si : Nat) (sl : PSlide) :
    slideEntries si sl =
      (allSlideEntries si sl).filter (fun e => hasVisible e.2.1) := by
  simp only [slideEntries, allSlideEntries, List.filter_append]
  congr 1
  · exact shapesEntries_eq_filter si 0 _
  · cases hn : sl.notes with
    | none => rfl
    | some paras => exact paraEntries_eq_filter _ 0 paras

theorem slidesEntries_eq_filter :
    ∀ (si : Nat) (sls : List PSlide),
      slidesEntries si sls =
        (allSlidesEntries si sls).filter (fun e => hasVisible e.2.1) := by
  intro si sls
  induction sls generalizing si with
  | nil => rfl
  | cons sl rest ih =>
      simp only [slidesEntries, allSlidesEntries, List.filter_append]
      rw [slideEntries_eq_filter, ih]

theorem allParaEntries_text (mkId : Nat → String) :
    ∀ (k : Nat) (ps : List (List Run)) e, e ∈ allParaEntries mkId k ps →
      e.2.1 = concatTexts e.2.2 := by
  intro k ps
  induction ps generalizing k with
  | nil => intro e he; simp [allParaEntries] at he
  | cons p rest ih =>
      intro e he
      rw [allParaEntries] at he
      rcases List.mem_cons.mp he with rfl | h
      · rfl
      · exact ih _ e h

theorem allTableCellEntries_text (si shi ri : Nat) :
    ∀ (ci : Nat) (cells : List (List (List Run))) e,
      e ∈ allTableCellEntries si shi ri ci cells → e.2.1 = concatTexts e.2.2 := by
  intro ci cells
  induction cells generalizing ci with
  | nil => intro e he; simp [allTableCellEntries] at he
  | cons cell rest ih =>
      intro e he
      rw [allTableCellEntries] at he
      rcases List.mem_append.mp he with h | h
      · exact allParaEntries_text _ _ _ e h
      · exact ih _ e h

theorem allTableRowEntries_text (si shi : Nat) :
    ∀ (ri : Nat) (rows : List (List (List (List Run)))) e,
      e ∈ allTableRowEntries si shi ri rows → e.2.1 = concatTexts e.2.2 := by
  intro ri rows
  induction rows generalizing ri with
  | nil => intro e he; simp [allTableRowEntries] at he
  | cons row rest ih =>
      intro e he
      rw [allTableRowEntries] at he
      rcases List.mem_append.mp he with h | h
      · exact allTableCellEntries_text _ _ _ _ _ e h
      · exact ih _ e h

theorem allShapeEntries_text (si shi : Nat) (s : PShape) :
    ∀ e ∈ allShapeEntries si shi s, e.2.1 = concatTexts e.2.2 := by
  intro e he
  cases s with
  | group ss => simp [allShapeEntries] at he
  | plain tf tb =>
      simp only [allShapeEntries] at he
      rcases List.mem_append.mp he with h | h
      · cases tf with
        | none => simp at h
        | some paras => exact allParaEntries_text _ _ _ e h
      · cases tb with
        | none => simp at h
        | some rows => exact allTableRowEntries_text _ _ _ _ e h

theorem allShapesEntries_text (si : Nat) :
    ∀ (shi : Nat) (l : List PShape) e, e ∈ allShapesEntries si shi l →
      e.2.1 = concatTexts e.2.2 := by
  intro shi l
  induction l generalizing shi with
  | nil => intro e he; simp [allShapesEntries] at he
  | cons s rest ih =>
      intro e he
      rw [allShapesEntries] at he
      rcases List.mem_append.mp he with h | h
      · exact allShapeEntries_text _ _ _ e h
      · exact ih _ e h

theorem allSlidesEntries_text :
    ∀ (si : Nat) (sls : List PSlide) e, e ∈ allSlidesEntries si sls →
      e.2.1 = concatTexts e.2.2 := by
  intro si sls
  induction sls generalizing si with
  | nil => intro e he; simp [allSlidesEntries] at he
  | cons sl rest ih =>
      intro e he
      rw [allSlidesEntries] at he
      rcases List.mem_append.mp he with h | h
      · rw [allSlideEntries] at h
        rcases List.mem_append.mp h with h2 | h2
        · exact allShapesEntries_text _ _ _ e h2
        · cases hn : sl.notes with
          | none => rw [hn] at h2; simp at h2
          | some paras =>
              rw [hn] at h2
              exact allParaEntries_text _ _ _ e h2
      · exact ih _ e h

theorem slidesEntries_degroup :
    ∀ (si : Nat) (sls : List PSlide),
      slidesEntries si (sls.map (fun sl => ⟨flattenShapes sl.shapes, sl.notes⟩)) =
        slidesEntries si sls := by
  intro si sls
  induction sls generalizing si with
  | nil => rfl
  | cons sl rest ih =>
      simp only [List.map_cons, slidesEntries]
      rw [ih]
      congr 1
      simp only [slideEntries, flattenShapes_idem]

/-- Association-list lookup (Python `dict[k]` / `k in dict`; insertion
order preserved, keys unique in the dictionaries built by the pipeline). -/
def lookupId {α : Type} (pid : String) : List (String × α) → Option α
  | [] => none
  | (k, v) :: rest => if k = pid then some v else lookupId pid rest

/-- The application loop of `process_presentation`: each returned entry
rewrites the runs of the matching paragraph (`if para_id in
paragraph_runs`), so ids absent from the response never touch their
paragraph. -/
def applyTranslations (paragraphRuns : List (String × List Run))
    (translated : List (String × List Char)) : List (String × List Run) :=
  translated.foldl
    (fun acc pt =>
      acc.map (fun e =>
        if e.1 = pt.1 then (e.1, applyFormattedTextToRuns e.2 pt.2) else e))
    paragraphRuns

/-- The response merge of `TranslationService.translate_batch`
(`services/translation_service.py`): every requested id gets the
translated value when present in the parsed response, and its original
text otherwise (identity fallback). -/
def mergeTranslations (requestTexts responseTexts : List (String × List Char)) :
    List (String × List Char) :=
  requestTexts.map (fun e =>
    match lookupId e.1 responseTexts with
    | some v => (e.1, v)
    | none => e)

theorem lookupId_map_guard (pid q : String)
    (f : List Run → List Run) (hq : ¬ q = pid) :
    ∀ m : List (String × List Run),
      lookupId pid (m.map (fun e => if e.1 = q then (e.1, f e.2) else e)) =
        lookupId pid m := by
  intro m
  induction m with
  | nil => rfl
  | cons e m ih =>
      obtain ⟨k, v⟩ := e
      simp only [List.map_cons]
      by_cases hkq : k = q
      · have hkp : ¬ k = pid := fun he => hq (hkq.symm.trans he)
        rw [show (if (k, v).1 = q then ((k, v).1, f (k, v).2) else (k, v)) = (k, f v)
          from by simp [hkq]]
        simp only [lookupId]
        rw [if_neg hkp, if_neg hkp]
        exact ih
      · rw [show (if (k, v).1 = q then ((k, v).1, f (k, v).2) else (k, v)) = (k, v)
          from by simp [hkq]]
        simp only [lookupId]
        by_cases hkp : k = pid
        · rw [if_pos hkp, if_pos hkp]
        · rw [if_neg hkp, if_neg hkp]
          exact ih

theorem applyTranslations_lookup_of_missing (pid : String) :
    ∀ (translated : List (String × List Char)) (m : List (String × List Run)),
      lookupId pid translated = none →
      lookupId pid (applyTranslations m translated) = lookupId pid m := by
  intro translated
  induction translated with
  | nil => intro m _; rfl
  | cons pt translated ih =>
      intro m h
      obtain ⟨q, t⟩ := pt
      simp only [lookupId] at h
      by_cases hq : q = pid
      · rw [if_pos hq] at h
        exact absurd h (by simp)
      · rw [if_neg hq] at h
        show lookupId pid (applyTranslations
          (m.map (fun e => if e.1 = q then (e.1, applyFormattedTextToRuns e.2 t) else e))
          translated) = lookupId pid m
        rw [ih _ h]
        exact lookupId_map_guard pid q (fun r => applyFormattedTextToRuns r t) hq m

theorem mergeTranslations_lookup_of_missing (pid : String)
    (responseTexts : List (String × List Char))
    (hresp : lookupId pid responseTexts = none) :
    ∀ requestTexts : List (String × List Char),
      lookupId pid (mergeTranslations requestTexts responseTexts) =
        lookupId pid requestTexts := by
  intro requestTexts
  induction requestTexts with
  | nil => rfl
  | cons e req ih =>
      obtain ⟨k, v⟩ := e
      simp only [mergeTranslations, List.map_cons]
      by_cases hk : k = pid
      · subst hk
        rw [hresp]
        simp [lookupId]
      · cases hlk : lookupId k responseTexts with
        | none =>
            simp only [hlk, lookupId, if_neg hk]
            exact ih
        | some w =>
            simp only [hlk, lookupId, if_neg hk]
            exact ih

theorem ne_nil_of_hasVisible {s : List Char} (h : hasVisible s = true) : s ≠ [] := by
  intro he
  subst he
  simp [hasVisible] at h

theorem noLtAll_concat {rs : List Run} (h : ∀ r ∈ rs, noLtAll r.text = true) :
    noLtAll (concatTexts rs) = true := by
  induction rs with
  | nil => rfl
  | cons r rs ih =>
      rw [concatTexts]
      exact noLtAll_append (h r (List.mem_cons_self _ _))
        (ih (fun x hx => h x (List.mem_cons_of_mem _ hx)))

theorem not_tok_beqs {X : List Char} (h : isTokChunk X = false) :
    (X == bStartTok) = false ∧ (X == bEndTok) = false ∧
    (X == iStartTok) = false ∧ (X == iEndTok) = false := by
  simp only [isTokChunk, Bool.or_eq_false_iff] at h
  exact ⟨h.1.1.1, h.1.1.2, h.1.2, h.2⟩

theorem map_clear_text (rs : List Run) :
    (rs.map clearText).map Run.text = List.replicate rs.length [] := by
  induction rs with
  | nil => rfl
  | cons r rs ih => simp [clearText, ih, List.replicate_succ]

theorem map_clear_text_comp (rs : List Run) :
    rs.map (Run.text ∘ clearText) = List.replicate rs.length [] := by
  induction rs with
  | nil => rfl
  | cons r rs ih => simp [clearText, ih, List.replicate_succ, Function.comp]

/-- Encoder loop on runs whose effective flags are all false, starting in
the (false, false) state: no tokens are emitted and no state is closed. -/
theorem encodeLoop_allFalse (rs : List Run)
    (h : ∀ r ∈ rs, r.bold.getD false = false ∧ r.italic.getD false = false) :
    encodeLoop rs (some false) (some false) = concatTexts rs := by
  induction rs with
  | nil => simp [encodeLoop, concatTexts]
  | cons r rs ih =>
      have hr := h r (List.mem_cons_self _ _)
      have hrs := fun x hx => h x (List.mem_cons_of_mem _ hx)
      by_cases ht : r.text = []
      · simp [encodeLoop, ht, concatTexts, ih hrs]
      · simp [encodeLoop, ht, hr.1, hr.2, concatTexts, ih hrs]

/-- Encoder loop on runs whose effective flags are all false, starting in
the initial `None` state: the first non-empty run triggers a
`false ≠ None` transition on both channels, emitting `BOLD_END` and
`ITALIC_END` before any text. -/
theorem encodeLoop_none_allFalse (rs : List Run)
    (h : ∀ r ∈ rs, r.bold.getD false = false ∧ r.italic.getD false = false)
    (hne : concatTexts rs ≠ []) :
    encodeLoop rs none none = bEndTok ++ iEndTok ++ concatTexts rs := by
  induction rs with
  | nil => exact absurd rfl hne
  | cons r rs ih =>
      have hr := h r (List.mem_cons_self _ _)
      have hrs := fun x hx => h x (List.mem_cons_of_mem _ hx)
      by_cases ht : r.text = []
      · have hne2 : concatTexts rs ≠ [] := by
          intro he
          exact hne (by simp [concatTexts, ht, he])
        simp only [encodeLoop, ht, if_true]
        rw [ih hrs hne2]
        simp [concatTexts, ht]
      · simp only [encodeLoop, ht, if_false]
        rw [hr.1, hr.2]
        simp only [ne_eq, reduceCtorEq, not_false_eq_true, if_true, if_false,
          Bool.false_eq_true]
        rw [encodeLoop_allFalse rs hrs]
        simp [concatTexts, List.append_assoc]

/-- Tokenizing `BOLD_END ++ ITALIC_END ++ X` for bracket-free `X`. -/
theorem splitMarks_end_end (X : List Char) (hX : noLtAll X = true) :
    splitMarks (bEndTok ++ iEndTok ++ X) =
      [[], bEndTok, [], iEndTok, X] := by
  rw [List.append_assoc]
  rw [splitMarks_tok_append (by decide : isTokChunk bEndTok = true)]
  rw [splitMarks_tok_append (by decide : isTokChunk iEndTok = true)]
  rw [splitMarks_noLt X hX]

/-- Decoding the part list `[ "", BOLD_END, "", ITALIC_END, X ]`: one
segment carrying `X` with both flags false. -/
theorem decodeSegments_end_end (X : List Char) (hX : noLtAll X = true)
    (hv : hasVisible X = true) :
    decodeSegments [[], bEndTok, [], iEndTok, X] false false = [(X, false, false)] := by
  obtain ⟨h1, h2, h3, h4⟩ := not_tok_beqs (noLt_tok_false hX)
  have e1 : (([] : List Char) == bStartTok) = false := by decide
  have e2 : (([] : List Char) == bEndTok) = false := by decide
  have e3 : (([] : List Char) == iStartTok) = false := by decide
  have e4 : (([] : List Char) == iEndTok) = false := by decide
  have e5 : hasVisible ([] : List Char) = false := by decide
  have e6 : (bEndTok == bStartTok) = false := by decide
  have e7 : (bEndTok == bEndTok) = true := by decide
  have e8 : (iEndTok == bStartTok) = false := by decide
  have e9 : (iEndTok == bEndTok) = false := by decide
  have e10 : (iEndTok == iStartTok) = false := by decide
  have e11 : (iEndTok == iEndTok) = true := by decide
  simp only [decodeSegments, e1, e2, e3, e4, e5, e6, e7, e8, e9, e10, e11,
    h1, h2, h3, h4, hv, if_true, if_false, Bool.false_eq_true]

theorem cleanText_end_end (X : List Char) (hX : noLtAll X = true) :
    cleanText (bEndTok ++ iEndTok ++ X) = X := by
  have hwf : wfChunks [bEndTok, iEndTok, X] = true := by
    simp only [wfChunks, List.all_cons, List.all_nil, Bool.and_eq_true]
    refine ⟨by decide, by decide, ?_, trivial⟩
    simp [wfChunk, hX]
  have hfl : bEndTok ++ iEndTok ++ X = flattenL [bEndTok, iEndTok, X] := by
    simp [flattenL, List.append_assoc]
  rw [hfl, cleanText_flatten hwf]
  have d1 : (!(isTokChunk bEndTok)) = false := by decide
  have d2 : (!(isTokChunk iEndTok)) = false := by decide
  have d3 : (!(isTokChunk X)) = true := by
    rw [noLt_tok_false hX]
    rfl
  simp only [List.filter_cons, d1, d2, d3, if_true, Bool.false_eq_true, if_false,
    List.filter_nil]
  simp [flattenL]

/-- Claim C1, as stated, is false on the code: a single plain run
(\`bold=None\`, \`italic=None\`, effective flags false) makes the encoder emit
two tokens, `<BOLD_END><ITALIC_END>`, not zero — the state variables start
as `None`, not false, so the first run triggers a `false != None`
transition on both channels.  With zero emitted tokens the output would
equal the concatenated run text; it does not. -/
theorem claim1_counterexample :
    createFormattedTextWithMarkers [⟨"Hello".data, none, none⟩] =
      "<BOLD_END><ITALIC_END>Hello".data ∧
    createFormattedTextWithMarkers [⟨"Hello".data, none, none⟩] ≠
      concatTexts [⟨"Hello".data, none, none⟩] ∧
    occursIn bEndTok (createFormattedTextWithMarkers [⟨"Hello".data, none, none⟩]) = true :=
  ⟨by decide, by decide, by decide⟩

/-- Claim C1 (amended): for a paragraph whose runs all have effective
formatting false (and ordinary bracket-free text, at least one visible
character), the encoder emits exactly the two tokens
`<BOLD_END><ITALIC_END>` before the concatenated text (not zero tokens:
the two state variables start as `None`, so the first non-empty run
triggers a transition), and decoding the unmodified encoded string
reproduces the original concatenated text as a single segment — the first
run receives all of it and every other run is left empty. -/
theorem claim1_plain_paragraph (runs : List Run)
    (hflags : ∀ r ∈ runs, r.bold.getD false = false ∧ r.italic.getD false = false)
    (hlt : ∀ r ∈ runs, noLtAll r.text = true)
    (hvis : hasVisible (concatTexts runs) = true) :
    createFormattedTextWithMarkers runs = bEndTok ++ iEndTok ++ concatTexts runs ∧
    decodeSegments (splitMarks (createFormattedTextWithMarkers runs)) false false =
      [(concatTexts runs, false, false)] ∧
    (applyFormattedTextToRuns runs (createFormattedTextWithMarkers runs)).map Run.text =
      concatTexts runs :: List.replicate (runs.length - 1) [] := by
  have hX : noLtAll (concatTexts runs) = true := noLtAll_concat hlt
  have hne : concatTexts runs ≠ [] := ne_nil_of_hasVisible hvis
  have henc : createFormattedTextWithMarkers runs =
      bEndTok ++ iEndTok ++ concatTexts runs := by
    rw [createFormatted_eq]
    exact encodeLoop_none_allFalse runs hflags hne
  refine ⟨henc, ?_, ?_⟩
  · rw [henc, splitMarks_end_end _ hX]
    exact decodeSegments_end_end _ hX hvis
  · cases runs with
    | nil => exact absurd rfl hne
    | cons r1 rest =>
        cases rest with
        | nil =>
            rw [henc]
            show [{ r1 with
              text := cleanText (bEndTok ++ iEndTok ++ concatTexts [r1]) }].map Run.text = _
            rw [cleanText_end_end _ hX]
            rfl
        | cons r2 rest2 =>
            rw [henc]
            show (applyLoop (splitMarks (bEndTok ++ iEndTok ++ concatTexts (r1 :: r2 :: rest2)))
              ((r1 :: r2 :: rest2).map clearText) false false 0).map Run.text = _
            rw [splitMarks_end_end _ hX, applyLoop_eq, decodeSegments_end_end _ hX hvis]
            simp only [List.take_zero, List.drop_zero, List.nil_append, List.map_cons]
            rw [assignSegs, assignSegs_nil_right]
            simp [applySeg, clearText, map_clear_text_comp, List.replicate_succ]

/-- Claim C2, as stated, is false on the code: the two-run scenario
["Hello " bold, "World" plain] does NOT encode to
`<BOLD_START>Hello <BOLD_END>World`; because the italic state starts as
`None`, a spurious `<ITALIC_END>` is also emitted at the first run. -/
theorem claim2_counterexample :
    createFormattedTextWithMarkers
      [⟨"Hello ".data, some true, some false⟩, ⟨"World".data, some false, some false⟩] ≠
      "<BOLD_START>Hello <BOLD_END>World".data :=
  by decide

/-- Claim C2 (amended): the scenario paragraph encodes to
`<BOLD_START><ITALIC_END>Hello <BOLD_END>World` (the extra `ITALIC_END`
coming from the initial unset italic state); the redistribution half of
the claim holds exactly as stated: applying
`<BOLD_START>Olá <BOLD_END>Mundo` sets run 1 to "Olá " with bold=true and
run 2 to "Mundo" with bold=false. -/
theorem claim2_hello_world_scenario :
    createFormattedTextWithMarkers
      [⟨"Hello ".data, some true, some false⟩, ⟨"World".data, some false, some false⟩] =
      "<BOLD_START><ITALIC_END>Hello <BOLD_END>World".data ∧
    applyFormattedTextToRuns
      [⟨"Hello ".data, some true, some false⟩, ⟨"World".data, some false, some false⟩]
      "<BOLD_START>Olá <BOLD_END>Mundo".data =
      [⟨"Olá ".data, some true, some false⟩, ⟨"Mundo".data, some false, some false⟩] :=
  ⟨by decide, by decide⟩

theorem claim1_plain_paragraph_witness :
    (∀ r ∈ ([⟨"Hello ".data, none, some false⟩, ⟨"World".data, some false, none⟩] : List Run),
      r.bold.getD false = false ∧ r.italic.getD false = false) ∧
    createFormattedTextWithMarkers
      [⟨"Hello ".data, none, some false⟩, ⟨"World".data, some false, none⟩] =
      bEndTok ++ iEndTok ++
        concatTexts [⟨"Hello ".data, none, some false⟩, ⟨"World".data, some false, none⟩] :=
  ⟨by decide, (claim1_plain_paragraph _ (by decide) (by decide) (by decide)).1⟩

/-- Claim C3: for a paragraph with more than one run,
`apply_formatted_text_to_runs` keeps the run count, pours the i-th decoded
segment into the i-th run — overwriting a bold/italic flag with the
segment's recovered state only when the flag was not the unset tri-state —
drops surplus segments silently, and leaves surplus runs with empty text
(their flags untouched), with no possibility of an error. -/
theorem claim3_positional_redistribution (runs : List Run) (t : List Char)
    (h : 2 ≤ runs.length) :
    (applyFormattedTextToRuns runs t).length = runs.length ∧
    (∀ k, (hk : k < runs.length) → ∀ p b i,
      (decodeSegments (splitMarks t) false false)[k]? = some (p, b, i) →
      (applyFormattedTextToRuns runs t)[k]? =
        some { text := p
             , bold := if (runs[k]).bold.isSome then some b else runs[k].bold
             , italic := if (runs[k]).italic.isSome then some i else runs[k].italic }) ∧
    (∀ k, (hk : k < runs.length) →
      (decodeSegments (splitMarks t) false false)[k]? = none →
      (applyFormattedTextToRuns runs t)[k]? = some { runs[k] with text := [] }) := by
  cases runs with
  | nil => exact absurd h (by simp)
  | cons r1 rest =>
      cases rest with
      | nil => exact absurd h (by simp)
      | cons r2 rest2 =>
          have happ : applyFormattedTextToRuns (r1 :: r2 :: rest2) t =
              assignSegs ((r1 :: r2 :: rest2).map clearText)
                (decodeSegments (splitMarks t) false false) := by
            show applyLoop _ _ _ _ 0 = _
            rw [applyLoop_eq]
            simp
          refine ⟨?_, ?_, ?_⟩
          · rw [happ, assignSegs_length]
            simp
          · intro k hk p b i hseg
            rw [happ, assignSegs_getElem, hseg]
            rw [List.getElem?_map, List.getElem?_eq_getElem hk]
            simp [applySeg, clearText]
          · intro k hk hseg
            rw [happ, assignSegs_getElem, hseg]
            rw [List.getElem?_map, List.getElem?_eq_getElem hk]
            simp [clearText]

theorem claim3_positional_redistribution_witness :
    2 ≤ ([⟨"aa".data, some false, none⟩, ⟨"bb".data, none, some true⟩,
        ⟨"cc".data, some true, some false⟩] : List Run).length ∧
    (applyFormattedTextToRuns
      [⟨"aa".data, some false, none⟩, ⟨"bb".data, none, some true⟩,
        ⟨"cc".data, some true, some false⟩]
      "<BOLD_START>Xy <BOLD_END>Z".data).length =
      ([⟨"aa".data, some false, none⟩, ⟨"bb".data, none, some true⟩,
        ⟨"cc".data, some true, some false⟩] : List Run).length :=
  ⟨by decide, (claim3_positional_redistribution _ _ (by decide)).1⟩

/-- Claim C4: with exactly one original run, segmentation is bypassed:
the four marker literals are stripped (by the four sequential `replace`
calls), the whole cleaned text is assigned to the run, and its bold and
italic flags are left unchanged.  On a well-formed interleaving of tokens
and bracket-free text this stripping removes exactly the token chunks. -/
theorem claim4_single_run_bypass (r : Run) (t : List Char) :
    applyFormattedTextToRuns [r] t =
      [{ text := cleanText t, bold := r.bold, italic := r.italic }] ∧
    (∀ cs : List (List Char), wfChunks cs = true →
      applyFormattedTextToRuns [r] (flattenL cs) =
        [{ text := flattenL (cs.filter (fun c => !(isTokChunk c)))
         , bold := r.bold, italic := r.italic }]) := by
  constructor
  · rfl
  · intro cs hcs
    have hdef : applyFormattedTextToRuns [r] (flattenL cs) =
        [{ r with text := cleanText (flattenL cs) }] := rfl
    rw [hdef, cleanText_flatten hcs]

theorem claim4_single_run_bypass_witness :
    wfChunks [bEndTok, "Bonjour ".data, iStartTok, "le monde".data, iEndTok] = true ∧
    applyFormattedTextToRuns [⟨"Hello world".data, some true, none⟩]
      (flattenL [bEndTok, "Bonjour ".data, iStartTok, "le monde".data, iEndTok]) =
      [{ text := flattenL ([bEndTok, "Bonjour ".data, iStartTok, "le monde".data,
          iEndTok].filter (fun c => !(isTokChunk c)))
       , bold := some true, italic := none }] :=
  ⟨by decide,
    (claim4_single_run_bypass ⟨"Hello world".data, some true, none⟩ []).2 _ (by decide)⟩

/-- Claim C5, as stated, is false on the code: the decoder does not drop
only empty fragments — any fragment without a visible (non-whitespace)
character is dropped.  Here the non-empty fragment " " between
`<BOLD_END>` and `<ITALIC_START>` is discarded: with three runs the run
texts come out as "A", "B", "" instead of "A", " ", "B". -/
theorem claim5_counterexample :
    ((splitMarks "<BOLD_START>A<BOLD_END> <ITALIC_START>B<ITALIC_END>".data).filter
        (fun p => !(isTokChunk p))).filter (fun p => !(p == [])) =
      ["A".data, " ".data, "B".data] ∧
    (decodeSegments (splitMarks "<BOLD_START>A<BOLD_END> <ITALIC_START>B<ITALIC_END>".data)
        false false).map (fun s => s.1) = ["A".data, "B".data] ∧
    (applyFormattedTextToRuns
        [⟨"A".data, some true, some false⟩, ⟨" ".data, some false, some false⟩,
          ⟨"B".data, some false, some true⟩]
        "<BOLD_START>A<BOLD_END> <ITALIC_START>B<ITALIC_END>".data).map Run.text =
      ["A".data, "B".data, []] :=
  ⟨by decide, by decide, by decide⟩

/-- Claim C5 (amended): in the decoder's general case every literal
fragment containing at least one non-whitespace character becomes exactly
one segment, in order, tagged with the current (bold, italic) state; a
fragment that is empty OR whitespace-only is dropped.  The segments are
precisely what the redistribution loop pours into the cleared runs. -/
theorem claim5_visible_fragments (t : List Char) :
    (decodeSegments (splitMarks t) false false).map (fun s => s.1) =
      (splitMarks t).filter (fun p => !(isTokChunk p) && hasVisible p) ∧
    (∀ runs : List Run, 2 ≤ runs.length →
      applyFormattedTextToRuns runs t =
        assignSegs (runs.map clearText) (decodeSegments (splitMarks t) false false)) := by
  constructor
  · exact decodeSegments_texts (splitMarks t) false false
  · intro runs h
    cases runs with
    | nil => exact absurd h (by simp)
    | cons r1 rest =>
        cases rest with
        | nil => exact absurd h (by simp)
        | cons r2 rest2 =>
            show applyLoop _ _ _ _ 0 = _
            rw [applyLoop_eq]
            simp

theorem claim5_visible_fragments_witness :
    2 ≤ ([⟨"A".data, some true, some false⟩, ⟨" ".data, some false, some false⟩,
        ⟨"B".data, some false, some true⟩] : List Run).length ∧
    applyFormattedTextToRuns
      [⟨"A".data, some true, some false⟩, ⟨" ".data, some false, some false⟩,
        ⟨"B".data, some false, some true⟩]
      "<BOLD_START>A<BOLD_END> <ITALIC_START>B<ITALIC_END>".data =
      assignSegs
        (([⟨"A".data, some true, some false⟩, ⟨" ".data, some false, some false⟩,
          ⟨"B".data, some false, some true⟩] : List Run).map clearText)
        (decodeSegments
          (splitMarks "<BOLD_START>A<BOLD_END> <ITALIC_START>B<ITALIC_END>".data)
          false false) :=
  ⟨by decide, (claim5_visible_fragments _).2 _ (by decide)⟩

/-- Claim C6, as stated, is false on the code: a run with empty text does
NOT participate in state tracking — the loop `continue`s over it, so its
formatting never opens or closes a span.  An empty bold+italic run emits
nothing on its own, and prepending it to a paragraph leaves the encoding
unchanged (no `<BOLD_START>` anywhere). -/
theorem claim6_counterexample :
    createFormattedTextWithMarkers [⟨[], some true, some true⟩] = [] ∧
    createFormattedTextWithMarkers
      [⟨[], some true, some true⟩, ⟨"Hi".data, some false, some false⟩] =
      createFormattedTextWithMarkers [⟨"Hi".data, some false, some false⟩] ∧
    occursIn bStartTok (createFormattedTextWithMarkers
      [⟨[], some true, some true⟩, ⟨"Hi".data, some false, some false⟩]) = false :=
  ⟨by decide, by decide, by decide⟩

/-- Claim C6 (amended): the encoder skips a run with empty text entirely:
it contributes neither characters nor any bold/italic state transition, so
deleting it from the run list never changes the encoder's output. -/
theorem claim6_empty_run_skipped (runs1 runs2 : List Run) (r : Run) (h : r.text = []) :
    createFormattedTextWithMarkers (runs1 ++ r :: runs2) =
      createFormattedTextWithMarkers (runs1 ++ runs2) := by
  rw [createFormatted_eq, createFormatted_eq]
  have key : ∀ (l1 : List Run) (cb ci : Option Bool),
      encodeLoop (l1 ++ r :: runs2) cb ci = encodeLoop (l1 ++ runs2) cb ci := by
    intro l1
    induction l1 with
    | nil =>
        intro cb ci
        show encodeLoop (r :: runs2) cb ci = _
        simp [encodeLoop, h]
    | cons a l1 ih =>
        intro cb ci
        simp only [List.cons_append, encodeLoop]
        by_cases ha : a.text = []
        · simp [ha, ih]
        · simp [ha, ih]
  exact key runs1 none none

theorem claim6_empty_run_skipped_witness :
    (⟨[], none, some true⟩ : Run).text = [] ∧
    createFormattedTextWithMarkers
      ([⟨"Hi".data, some true, none⟩] ++ ⟨[], none, some true⟩ ::
        [⟨"Ho".data, none, none⟩]) =
      createFormattedTextWithMarkers
        ([⟨"Hi".data, some true, none⟩] ++ [⟨"Ho".data, none, none⟩]) :=
  ⟨rfl, claim6_empty_run_skipped _ _ _ rfl⟩

/-- Claim C7: a paragraph id submitted for translation but missing from
the response is never touched by the application loop of
`process_presentation` (its runs, hence its text, stay exactly as before
and the loop completes over the remaining ids), and the
`TranslationService.translate_batch` merge explicitly maps such an id back
to its original text (identity fallback). -/
theorem claim7_identity_fallback (pid : String)
    (paragraphRuns : List (String × List Run))
    (translated : List (String × List Char))
    (requestTexts responseTexts : List (String × List Char))
    (h1 : lookupId pid translated = none)
    (h2 : lookupId pid responseTexts = none) :
    lookupId pid (applyTranslations paragraphRuns translated) =
      lookupId pid paragraphRuns ∧
    lookupId pid (mergeTranslations requestTexts responseTexts) =
      lookupId pid requestTexts :=
  ⟨applyTranslations_lookup_of_missing pid translated paragraphRuns h1,
   mergeTranslations_lookup_of_missing pid responseTexts h2 requestTexts⟩

theorem claim7_identity_fallback_witness :
    lookupId "s0_sh0_p0" ([("s0_sh1_p0", "Bonjour".data)] : List (String × List Char)) =
      none ∧
    (lookupId "s0_sh0_p0" (applyTranslations
        [("s0_sh0_p0", [⟨"Hello".data, some true, none⟩])]
        [("s0_sh1_p0", "Bonjour".data)]) =
      lookupId "s0_sh0_p0" [("s0_sh0_p0", [⟨"Hello".data, some true, none⟩])] ∧
    lookupId "s0_sh0_p0" (mergeTranslations
        [("s0_sh0_p0", "Hello".data)] [("s0_sh1_p0", "Bonjour".data)]) =
      lookupId "s0_sh0_p0" [("s0_sh0_p0", "Hello".data)]) :=
  ⟨by decide, claim7_identity_fallback "s0_sh0_p0" _ _ _ _ (by decide) (by decide)⟩

/-- Claim C9: the walker emits an entry exactly for the paragraphs whose
concatenated run text has a non-whitespace character (whitespace-only and
zero-run paragraphs are skipped, never assigned an id), the recorded
combined text is the concatenation of the paragraph's run texts, and
paragraphs inside group shapes nested to arbitrary depth are discovered
exactly as if their shapes were at top level (degrouping the presentation
does not change the extraction). -/
theorem claim9_walker_contract (prs : Pres) :
    (extractParagraphsWithRunMapping prs).2 =
      ((allSlidesEntries 0 prs.slides).filter (fun e => hasVisible e.2.1)).map
        (fun e => (e.1, e.2.2)) ∧
    (extractParagraphsWithRunMapping prs).1 =
      ((allSlidesEntries 0 prs.slides).filter (fun e => hasVisible e.2.1)).map
        (fun e => (e.1, e.2.1)) ∧
    (∀ e ∈ allSlidesEntries 0 prs.slides, e.2.1 = concatTexts e.2.2) ∧
    extractParagraphsWithRunMapping (degroup prs) = extractParagraphsWithRunMapping prs := by
  refine ⟨?_, ?_, ?_, ?_⟩
  · show (slidesEntries 0 prs.slides).map _ = _
    rw [slidesEntries_eq_filter]
  · show (slidesEntries 0 prs.slides).map _ = _
    rw [slidesEntries_eq_filter]
  · exact allSlidesEntries_text 0 prs.slides
  · simp only [extractParagraphsWithRunMapping, degroup]
    rw [slidesEntries_degroup]

/-- Claim C10, as stated, is false on the code: token-freedom of each
individual run text is not enough, because a token can form across a run
boundary.  Texts "<BOLD" and "_START>" are each free of all four marker
literals, yet their concatenation is `<BOLD_START>`, which the stripping
removes — the round trip loses the text entirely. -/
theorem claim10_counterexample :
    tokenFreeStr "<BOLD".data = true ∧
    tokenFreeStr "_START>".data = true ∧
    cleanText (createFormattedTextWithMarkers
      [⟨"<BOLD".data, none, none⟩, ⟨"_START>".data, none, none⟩]) = [] ∧
    concatTexts [⟨"<BOLD".data, none, none⟩, ⟨"_START>".data, none, none⟩] =
      "<BOLD_START>".data ∧
    cleanText (createFormattedTextWithMarkers
      [⟨"<BOLD".data, none, none⟩, ⟨"_START>".data, none, none⟩]) ≠
      concatTexts [⟨"<BOLD".data, none, none⟩, ⟨"_START>".data, none, none⟩] :=
  ⟨by decide, by decide, by decide, by decide, by decide⟩

/-- Claim C10 (amended): for every run list whose texts contain no
opening angle bracket (so no marker literal can occur in or across run
texts), removing all occurrences of the four tokens from the encoder's
output yields exactly the concatenation of the run texts in their
original order — the encoding never loses, duplicates, or reorders
literal text. -/
theorem claim10_token_erasure (runs : List Run)
    (h : ∀ r ∈ runs, noLtAll r.text = true) :
    cleanText (createFormattedTextWithMarkers runs) = concatTexts runs := by
  rw [createFormatted_eq, encodeLoop_eq_flatten]
  rw [cleanText_flatten (encodeChunks_wf runs h none none)]
  exact encodeChunks_filter runs h none none

theorem claim10_token_erasure_witness :
    (∀ r ∈ ([⟨"Hello ".data, some true, none⟩, ⟨"World".data, none, none⟩] : List Run),
      noLtAll r.text = true) ∧
    cleanText (createFormattedTextWithMarkers
      [⟨"Hello ".data, some true, none⟩, ⟨"World".data, none, none⟩]) =
      concatTexts [⟨"Hello ".data, some true, none⟩, ⟨"World".data, none, none⟩] :=
  ⟨by decide, claim10_token_erasure _ (by decide)⟩

end SlideTranslator
